import Mathlib

/-!
Verification of the page-level layout-preserving translation engine of
PDFMathTranslate (file pdf2zh/converter.py), against its natural-language
specification.

Modelling conventions (shallow embedding):
* Python floats are modelled as exact rationals.
* Python strings are modelled as lists of characters.
* External library callables that the engine merely invokes (the translation
  backend, pdfminer font objects, pymupdf fonts, the unicodedata category
  table and the user-supplied vfont/vchar regexes) are parameters of the
  embedding, passed in as Lean functions.
* Fallible Python code is modelled with Except/Option; the unbounded
  tenacity retry loop is modelled with an explicit fuel argument, where a
  result of none means the loop is still retrying.
* Recursions that walk a string by a varying number of characters per step
  carry a fuel argument instantiated with the length of the string; each
  step consumes at least one character, so that fuel is always sufficient
  (proved below), and the definitions stay kernel-computable.
-/

/-- Python str whitespace, as used by str.strip and the regex class \s
(ASCII whitespace, the C1 separators, NEL, NBSP and the Unicode space
characters). -/
def pyIsSpace (c : Char) : Bool :=
  c = ' ' || c = '\t' || c = '\n' || c = '\r' || c = '\x0b' || c = '\x0c' ||
  (0x1c ≤ c.toNat && c.toNat ≤ 0x1f) || c.toNat = 0x85 || c.toNat = 0xa0 ||
  c.toNat = 0x1680 || (0x2000 ≤ c.toNat && c.toNat ≤ 0x200a) ||
  c.toNat = 0x2028 || c.toNat = 0x2029 || c.toNat = 0x202f ||
  c.toNat = 0x205f || c.toNat = 0x3000

/-- Python str.strip(): drop leading and trailing whitespace. -/
def pyStrip (l : List Char) : List Char :=
  ((l.dropWhile pyIsSpace).reverse.dropWhile pyIsSpace).reverse

theorem pyStrip_eq_nil_iff (l : List Char) :
    pyStrip l = [] ↔ l.all pyIsSpace = true := by
  unfold pyStrip
  rw [List.reverse_eq_nil_iff, List.dropWhile_eq_nil_iff, List.all_eq_true]
  constructor
  · intro h x hx
    have hx' : x ∈ l.takeWhile pyIsSpace ∨ x ∈ l.dropWhile pyIsSpace := by
      rw [← List.mem_append, List.takeWhile_append_dropWhile]
      exact hx
    rcases hx' with h1 | h2
    · exact List.mem_takeWhile_imp h1
    · exact h _ (List.mem_reverse.mpr h2)
  · intro h x hx
    exact h x ((List.dropWhile_sublist pyIsSpace).subset (List.mem_reverse.mp hx))

/-- Digits of a natural number, most significant first (decimal). -/
def natDigits (n : ℕ) : List Char := Nat.toDigits 10 n

/-- Value of a list of ASCII decimal digits (int() on a digit string). -/
def digitsVal (l : List Char) : ℕ :=
  l.foldl (fun n c => 10 * n + (c.toNat - '0'.toNat)) 0

/-- Full match of the worker's bypass regex body \x7bv[0-9]+\x7d :
an opening brace, the letter v, one or more digits, a closing brace,
and nothing else. -/
def coreMatchVTemplate (l : List Char) : Bool :=
  match l with
  | '\x7b' :: 'v' :: rest =>
    let ds := rest.takeWhile Char.isDigit
    decide (ds ≠ []) && decide (rest.drop ds.length = ['\x7d'])
  | _ => false

/-- Python re.match of the anchored pattern used by the worker: the dollar
anchor also matches just before one trailing newline. -/
def fullMatchVTemplate (l : List Char) : Bool :=
  coreMatchVTemplate l ||
    (match l.getLast? with
     | some '\n' => coreMatchVTemplate l.dropLast
     | _ => false)

/-- The worker's bypass test (converter.py line 465):
not s.strip() or re.match of the template pattern. -/
def bypassTemplate (s : List Char) : Bool :=
  decide (pyStrip s = []) || fullMatchVTemplate s

/-- One attempt of the worker body (converter.py lines 464-475): a bypassed
template is returned as-is, any other template is handed verbatim to the
backend, whose k-th call may raise (Except.error).  k counts the calls made
for this template so far. -/
def workerAttempt (backend : ℕ → List Char → Except Unit (List Char))
    (s : List Char) (k : ℕ) : Except Unit (List Char) :=
  if bypassTemplate s then .ok s else backend k s

/-- The tenacity retry loop (retry with wait_fixed 1, no stop condition):
attempt k, and on error wait one second and try attempt k+1.  The fuel
argument bounds how many attempts we unroll; none means the loop is still
retrying after fuel attempts.  On success it returns the value together
with the index of the successful attempt. -/
def retryLoop (f : ℕ → Except Unit (List Char)) : ℕ → ℕ → Option (List Char × ℕ)
  | 0, _ => none
  | fuel + 1, k =>
    match f k with
    | .ok t => some (t, k)
    | .error _ => retryLoop f fuel (k + 1)

/-- Running one template through the retried worker.  The result carries the
translated text, the number of backend invocations made, and the total
seconds waited (one second after each failed attempt). -/
def runTemplate (backend : ℕ → List Char → Except Unit (List Char))
    (fuel : ℕ) (s : List Char) : Option (List Char × ℕ × ℕ) :=
  match retryLoop (workerAttempt backend s) fuel 0 with
  | some (t, k) => some (t, (if bypassTemplate s then 0 else k + 1), k)
  | none => none

/-- The dispatcher (converter.py lines 476-479): executor.map applies the
retried worker to every template of sstk and yields the results in input
order. -/
def dispatchTemplates (backend : ℕ → ℕ → List Char → Except Unit (List Char))
    (fuel : ℕ) (sstk : List (List Char)) : List (Option (List Char × ℕ × ℕ)) :=
  sstk.mapIdx (fun i s => runTemplate (backend i) fuel s)

theorem retryLoop_spec (f : ℕ → Except Unit (List Char)) (t : List Char) :
    ∀ (K fuel j : ℕ), (∀ k, j ≤ k → k < j + K → f k = .error ()) →
      f (j + K) = .ok t → K < fuel →
      retryLoop f fuel j = some (t, j + K) := by
  intro K
  induction K with
  | zero =>
    intro fuel j _ hsucc hfuel
    match fuel, hfuel with
    | fuel + 1, _ =>
      have hj : f j = .ok t := by simpa using hsucc
      simp only [retryLoop, hj]
      simp
  | succ K ih =>
    intro fuel j hfail hsucc hfuel
    match fuel, hfuel with
    | fuel + 1, hfuel =>
      have hj : f j = .error () := hfail j le_rfl (by omega)
      simp only [retryLoop, hj]
      have := ih fuel (j + 1)
        (fun k hk1 hk2 => hfail k (by omega) (by omega))
        (by have : j + 1 + K = j + (K + 1) := by omega
            rw [this]; exact hsucc)
        (by omega)
      rw [this]
      congr 2
      omega

theorem retryLoop_none (f : ℕ → Except Unit (List Char))
    (hf : ∀ k, f k = .error ()) : ∀ fuel j, retryLoop f fuel j = none := by
  intro fuel
  induction fuel with
  | zero => intro j; rfl
  | succ fuel ih =>
    intro j
    simp only [retryLoop, hf j]
    exact ih (j + 1)

/-- C1: a template that the bypass test accepts (full match of the formula
placeholder pattern, or only whitespace) is returned unchanged with zero
backend invocations; any other template is handed verbatim to the backend
(one invocation when the backend succeeds at once).  The third conjunct
identifies the bypass test with the claim's two conditions. -/
theorem C1_formula_bypass (backend : ℕ → List Char → Except Unit (List Char))
    (fuel : ℕ) (s t : List Char) :
    (bypassTemplate s = true → runTemplate backend (fuel + 1) s = some (s, 0, 0)) ∧
    (bypassTemplate s = false → backend 0 s = .ok t →
      runTemplate backend (fuel + 1) s = some (t, 1, 0)) ∧
    bypassTemplate s = (s.all pyIsSpace || fullMatchVTemplate s) := by
  have hdec : (decide (pyStrip s = [])) = s.all pyIsSpace := by
    by_cases h : pyStrip s = []
    · simp [h, (pyStrip_eq_nil_iff s).mp h]
    · have hna : s.all pyIsSpace ≠ true := fun hc => h ((pyStrip_eq_nil_iff s).mpr hc)
      simp [h, Bool.eq_false_iff.mpr hna]
  refine ⟨?_, ?_, ?_⟩
  · intro hb
    unfold runTemplate
    have ha : workerAttempt backend s 0 = .ok s := by simp [workerAttempt, hb]
    simp only [retryLoop, ha, hb, if_true]
  · intro hb hok
    unfold runTemplate
    have ha : workerAttempt backend s 0 = .ok t := by simp [workerAttempt, hb, hok]
    simp only [retryLoop, ha, hb]
    simp
  · unfold bypassTemplate
    rw [hdec]

theorem C1_formula_bypass_witness :
    runTemplate (fun _ s => .ok s) 1 ['\x7b', 'v', '2', '\x7d'] =
      some (['\x7b', 'v', '2', '\x7d'], 0, 0) ∧
    runTemplate (fun _ _ => .ok ['x']) 1 ['a'] = some (['x'], 1, 0) :=
  ⟨(C1_formula_bypass (fun _ s => .ok s) 0 ['\x7b', 'v', '2', '\x7d'] []).1
      (by decide),
   (C1_formula_bypass (fun _ _ => .ok ['x']) 0 ['a'] ['x']).2.1
      (by decide) rfl⟩

/-- C2: for a non-bypassed template at index i, a backend that fails K times
and then succeeds yields exactly K+1 backend calls and K seconds of fixed
one-second waits, the successful output sits at index i of the result list,
and the result list has the length of the input list.  A backend that keeps
failing never produces an error value: the loop just keeps retrying (none
for every fuel). -/
theorem C2_retry_semantics (backend : ℕ → ℕ → List Char → Except Unit (List Char))
    (ss : List (List Char)) (i K fuel : ℕ) (t s : List Char)
    (hs : ss[i]? = some s)
    (hb : bypassTemplate s = false)
    (hfail : ∀ k, k < K → backend i k s = .error ())
    (hsucc : backend i K s = .ok t)
    (hfuel : K < fuel) :
    (dispatchTemplates backend fuel ss).length = ss.length ∧
    (dispatchTemplates backend fuel ss)[i]? = some (some (t, K + 1, K)) ∧
    (∀ s' fl, bypassTemplate s' = false → (∀ k, backend i k s' = .error ()) →
      runTemplate (backend i) fl s' = none) := by
  refine ⟨by simp [dispatchTemplates], ?_, ?_⟩
  · rw [dispatchTemplates, List.getElem?_mapIdx, hs]
    have hloop : retryLoop (workerAttempt (backend i) s) fuel 0 = some (t, K) := by
      have := retryLoop_spec (workerAttempt (backend i) s) t K fuel 0
        (fun k _ hk => by simpa [workerAttempt, hb] using hfail k (by omega))
        (by simpa [workerAttempt, hb] using hsucc) hfuel
      simpa using this
    simp [runTemplate, hloop, hb]
  · intro s' fl hb' hf
    have : retryLoop (workerAttempt (backend i) s') fl 0 = none :=
      retryLoop_none _ (fun k => by simp [workerAttempt, hb', hf k]) fl 0
    simp [runTemplate, this]

theorem C2_retry_semantics_witness :
    (dispatchTemplates
        (fun _ k _ => if k < 2 then .error () else .ok ['O', 'K'])
        4 [['h', 'i']])[0]? = some (some (['O', 'K'], 3, 2)) :=
  (C2_retry_semantics (fun _ k _ => if k < 2 then .error () else .ok ['O', 'K'])
      [['h', 'i']] 0 2 4 ['O', 'K'] ['h', 'i'] rfl (by decide)
      (by intro k hk; interval_cases k <;> rfl) rfl (by decide)).2.1

/-- A placed character (pdfminer LTChar, as extended by render_char):
coordinates, font size, the first four entries of the placement matrix,
decoded text, font name, a reference to the font object (modelled by an
opaque string key) and the original character code. -/
structure Glyph where
  x0 : ℚ := 0
  x1 : ℚ := 0
  y0 : ℚ := 0
  y1 : ℚ := 0
  size : ℚ := 0
  height : ℚ := 0
  width : ℚ := 0
  m0 : ℚ := 0
  m1 : ℚ := 0
  m2 : ℚ := 0
  m3 : ℚ := 0
  text : List Char := []
  fontname : String := ""
  font : String := ""
  cid : ℕ := 0
deriving DecidableEq

def defaultGlyph : Glyph := {}

/-- A vector line (pdfminer LTLine): the two endpoints and the stroke
width. -/
structure Line where
  p0x : ℚ := 0
  p0y : ℚ := 0
  p1x : ℚ := 0
  p1y : ℚ := 0
  linewidth : ℚ := 0
deriving DecidableEq

/-- A paragraph record (converter.py class Paragraph). -/
structure Para where
  y : ℚ := 0
  x : ℚ := 0
  x0 : ℚ := 0
  x1 : ℚ := 0
  y0 : ℚ := 0
  y1 : ℚ := 0
  size : ℚ := 0
  brk : Bool := false
  vertical : Bool := false
  vertical_direction : ℤ := 0
  vertical_positions : List (ℚ × ℚ) := []
  vertical_spacing : ℚ := 0
deriving DecidableEq

def defaultPara : Para := {}

/-- Python int() truncates toward zero. -/
def truncToInt (q : ℚ) : ℤ := if 0 ≤ q then ⌊q⌋ else ⌈q⌉

/-- numpy clip: minimum(hi, maximum(v, lo)). -/
def npClip (v lo hi : ℤ) : ℤ := min hi (max v lo)

/-- The label-map lookup used for both glyphs and lines (converter.py lines
349-352 and 436-439): truncate the coordinates to integers, clamp into the
label map's shape, and read the cell. -/
def labelLookup (layout : ℕ → ℕ → ℤ) (h w : ℕ) (x0 y0 : ℚ) : ℤ :=
  let cx := npClip (truncToInt x0) 0 ((w : ℤ) - 1)
  let cy := npClip (truncToInt y0) 0 ((h : ℤ) - 1)
  layout cy.toNat cx.toNat

/-- The layout class of a glyph, with the hardcoded bullet override
(converter.py lines 350-355): a glyph whose decoded text is the bullet
character is forced into class 0. -/
def glyphCls (layout : ℕ → ℕ → ℤ) (h w : ℕ) (g : Glyph) : ℤ :=
  let cls := labelLookup layout h w g.x0 g.y0
  if g.text = ['•'] then 0 else cls

/-- Configuration and external tables consumed by vflag: the optional
user-supplied vfont/vchar regex matchers, the built-in LaTeX font-name
regex (an external re.match call, modelled as a predicate on the stripped
font name), and the unicodedata category table. -/
structure VCfg where
  vfontMatch : Option (String → Bool)
  vcharMatch : Option (List Char → Bool)
  builtinFontMatch : String → Bool
  ucdCat : Char → String

/-- font.split on plus, last component (subset tag removal). -/
def stripSubsetTag (font : String) : String :=
  ((font.toList.reverse.takeWhile (· ≠ '+')).reverse).asString

/-- re.match of the pattern backslash-open-paren cid colon: the decoded text
starts with the five characters of an undecodable-glyph marker. -/
def startsWithCid (char : List Char) : Bool :=
  ['(', 'c', 'i', 'd', ':'].isPrefixOf char

/-- vflag (converter.py lines 294-329): decide whether a glyph counts as
formula by font name or by character class.  Fontnames that arrive as
undecodable bytes are modelled as already decoded (empty on failure). -/
def vflag (cfg : VCfg) (font : String) (char : List Char) : Bool :=
  let font := stripSubsetTag font
  if startsWithCid char then true
  else if (match cfg.vfontMatch with
           | some m => m font
           | none => cfg.builtinFontMatch font) then true
  else
    match cfg.vcharMatch with
    | some m => m char
    | none =>
      decide (char ≠ []) && decide (char ≠ [' ']) &&
        (decide (cfg.ucdCat (char.headD ' ') ∈
            (["Lm", "Mn", "Sk", "Sm", "Zl", "Zp", "Zs"] : List String)) ||
         (0x370 ≤ (char.headD ' ').toNat && (char.headD ' ').toNat < 0x400))

/-- The scan state threaded through part A of receive_layout (converter.py
lines 218-238): paragraph text stack, paragraph attribute stack, formula
bracket depth, the open formula's glyph/line stacks and vertical correction,
the closed formula groups, and the previous glyph with its class. -/
structure ScanSt where
  sstk : List (List Char) := []
  pstk : List Para := []
  vbkt : ℕ := 0
  vstk : List Glyph := []
  vlstk : List Line := []
  vfix : ℚ := 0
  var : List (List Glyph) := []
  varl : List (List Line) := []
  varf : List ℚ := []
  xt : Glyph := {}
  xt_cls : ℤ := -1
deriving DecidableEq

def lastStr (l : List (List Char)) : List Char := l.getLastD []

/-- sstk with its last entry extended (Python sstk[-1] += suf; the code only
does this when sstk is non-empty). -/
def appendLast (l : List (List Char)) (suf : List Char) : List (List Char) :=
  match l with
  | [] => []
  | _ => l.dropLast ++ [l.getLastD [] ++ suf]

/-- pstk with its last entry modified (Python pstk[-1]; only reached when
pstk is non-empty). -/
def modifyLastPara (l : List Para) (f : Para → Para) : List Para :=
  match l with
  | [] => []
  | _ => l.dropLast ++ [f (l.getLastD defaultPara)]

/-- Python max() over a non-empty list (default only for the unreachable
empty case). -/
def listMaxQ (l : List ℚ) (d : ℚ) : ℚ :=
  match l with
  | [] => d
  | x :: xs => xs.foldl max x

/-- The formula placeholder text for group n. -/
def placeholderStr (n : ℕ) : List Char :=
  '\x7b' :: 'v' :: natDigits n ++ ['\x7d']

/-- The formula test of converter.py lines 356-361: reserved class, the
sub/superscript size heuristic inside the current paragraph, or the
typography test. -/
def stepCurV0 (cfg : VCfg) (cls : ℤ) (st : ScanSt) (g : Glyph) : Bool :=
  decide (cls = 0) ||
  (decide (cls = st.xt_cls) && decide ((pyStrip (lastStr st.sstk)).length > 1) &&
    decide (g.size < (st.pstk.getLastD defaultPara).size * (79 / 100))) ||
  vflag cfg g.fontname g.text

/-- The parenthesis extension of converter.py lines 363-370, returning the
final cur_v together with the updated bracket depth. -/
def stepCurV (cfg : VCfg) (cls : ℤ) (st : ScanSt) (g : Glyph) : Bool × ℕ :=
  let cv0 := stepCurV0 cfg cls st g
  if cv0 then (cv0, st.vbkt)
  else
    let p1 := if st.vstk ≠ [] ∧ g.text = ['('] then (true, st.vbkt + 1)
              else (cv0, st.vbkt)
    if p1.2 ≠ 0 ∧ g.text = [')'] then (true, p1.2 - 1) else p1

/-- The formula-close block of part A (converter.py lines 371-395), run
with the bracket depth already updated: when the close condition holds and
a formula is open, record the vertical correction, append the placeholder
to the paragraph text, move the formula stacks into the group lists, and
reset; a closed pure-formula paragraph also resets the previous class. -/
def stepClose (cur_v : Bool) (cls : ℤ) (vmax : ℚ) (st : ScanSt) (g : Glyph) : ScanSt :=
  let closeCond := cur_v = false ∨ cls ≠ st.xt_cls ∨
    (lastStr st.sstk ≠ [] ∧ |g.x0 - st.xt.x0| > vmax)
  if closeCond ∧ st.vstk ≠ [] then
    let vfix1 := if cur_v = false ∧ cls = st.xt_cls ∧
        g.x0 > listMaxQ (st.vstk.map Glyph.x0) 0 then
        (st.vstk.headD defaultGlyph).y0 - g.y0
      else st.vfix
    let xtcls1 : ℤ := if lastStr st.sstk = [] then -1 else st.xt_cls
    { st with
      sstk := appendLast st.sstk (placeholderStr st.var.length),
      var := st.var ++ [st.vstk], varl := st.varl ++ [st.vlstk],
      varf := st.varf ++ [vfix1],
      vstk := [], vlstk := [], vfix := 0, xt_cls := xtcls1 }
  else st

/-- The paragraph join/create block of part A (converter.py lines 396-406):
when no formula is open, a same-class glyph may insert a space or set the
wrap flag, and a different-class glyph opens a fresh paragraph. -/
def stepJoin (cls : ℤ) (st1 : ScanSt) (g : Glyph) : ScanSt :=
  if st1.vstk = [] then
    if cls = st1.xt_cls then
      if g.x0 > st1.xt.x1 + 1 then
        { st1 with sstk := appendLast st1.sstk [' '] }
      else if g.x1 < st1.xt.x0 then
        { st1 with
          sstk := appendLast st1.sstk [' '],
          pstk := modifyLastPara st1.pstk (fun p => { p with brk := true }) }
      else st1
    else
      { st1 with
        sstk := st1.sstk ++ [[]],
        pstk := st1.pstk ++ [{
          y := g.y0, x := g.x0, x0 := g.x0, x1 := g.x0,
          y0 := g.y0, y1 := g.y1, size := g.size, brk := false }] }
  else st1

/-- The text/formula push block of part A (converter.py lines 407-422):
body glyphs may bump the paragraph size (drop-cap rule) and are appended to
the paragraph text; formula glyphs may set the entry correction and are
pushed on the formula stack. -/
def stepPush (cur_v : Bool) (cls : ℤ) (st2 : ScanSt) (g : Glyph) : ScanSt :=
  if cur_v = false then
    let bump := (g.size > (st2.pstk.getLastD defaultPara).size ∨
      (pyStrip (lastStr st2.sstk)).length = 1) ∧ g.text ≠ [' ']
    let st2b : ScanSt := if bump then
        { st2 with
          pstk := modifyLastPara st2.pstk
            (fun p => { p with y := p.y - (g.size - p.size), size := g.size }) }
      else st2
    { st2b with sstk := appendLast st2b.sstk g.text }
  else
    let vfix2 := if st2.vstk = [] ∧ cls = st2.xt_cls ∧ g.x0 > st2.xt.x0 then
        g.y0 - st2.xt.y0
      else st2.vfix
    { st2 with vstk := st2.vstk ++ [g], vfix := vfix2 }

/-- The bounding-box and previous-glyph update of part A (converter.py
lines 423-430). -/
def stepBBox (cls : ℤ) (st3 : ScanSt) (g : Glyph) : ScanSt :=
  { st3 with
    pstk := modifyLastPara st3.pstk (fun p =>
      { p with
        x0 := min p.x0 g.x0, x1 := max p.x1 g.x1,
        y0 := min p.y0 g.y0, y1 := max p.y1 g.y1 }),
    xt := g, xt_cls := cls }

/-- One step of part A of receive_layout for a horizontal LTChar
(converter.py lines 346-430): classify the glyph, update the bracket depth,
possibly close the open formula, join or open a paragraph, push the glyph
as text or formula, and update the bounding box and previous-glyph
registers. -/
def stepChar (cfg : VCfg) (layout : ℕ → ℕ → ℤ) (h w : ℕ) (vmax : ℚ)
    (st : ScanSt) (g : Glyph) : ScanSt :=
  let cls := glyphCls layout h w g
  let cvb := stepCurV cfg cls st g
  stepBBox cls
    (stepPush cvb.1 cls
      (stepJoin cls
        (stepClose cvb.1 cls vmax { st with vbkt := cvb.2 } g) g) g) g

theorem length_appendLast (l : List (List Char)) (s : List Char) :
    (appendLast l s).length = l.length := by
  cases l with
  | nil => rfl
  | cons a as =>
    simp [appendLast, List.length_dropLast]

theorem length_modifyLastPara (l : List Para) (f : Para → Para) :
    (modifyLastPara l f).length = l.length := by
  cases l with
  | nil => rfl
  | cons a as =>
    simp [modifyLastPara, List.length_dropLast]

theorem stepClose_pstk (cv : Bool) (cls : ℤ) (vmax : ℚ) (st : ScanSt) (g : Glyph) :
    (stepClose cv cls vmax st g).pstk = st.pstk := by
  simp only [stepClose]
  split <;> rfl

theorem stepClose_sstk_length (cv : Bool) (cls : ℤ) (vmax : ℚ) (st : ScanSt) (g : Glyph) :
    (stepClose cv cls vmax st g).sstk.length = st.sstk.length := by
  simp only [stepClose]
  split
  · simp [length_appendLast]
  · rfl

theorem stepClose_xt (cv : Bool) (cls : ℤ) (vmax : ℚ) (st : ScanSt) (g : Glyph) :
    (stepClose cv cls vmax st g).xt = st.xt := by
  simp only [stepClose]
  split <;> rfl

theorem stepClose_vstk_of_curv_false (cls : ℤ) (vmax : ℚ) (st : ScanSt) (g : Glyph) :
    (stepClose false cls vmax st g).vstk = [] := by
  simp only [stepClose]
  split
  · rfl
  · rename_i hc
    by_cases hv : st.vstk = []
    · exact hv
    · exact absurd ⟨Or.inl (by trivial), hv⟩ hc

theorem stepClose_xt_cls_of_ne (cv : Bool) (cls : ℤ) (vmax : ℚ) (st : ScanSt)
    (g : Glyph) (hne : lastStr st.sstk ≠ []) :
    (stepClose cv cls vmax st g).xt_cls = st.xt_cls := by
  simp only [stepClose]
  split
  · simp [hne]
  · rfl

theorem stepClose_xt_cls_cases (cv : Bool) (cls : ℤ) (vmax : ℚ) (st : ScanSt)
    (g : Glyph) :
    (stepClose cv cls vmax st g).xt_cls = st.xt_cls ∨
    (stepClose cv cls vmax st g).xt_cls = -1 := by
  simp only [stepClose]
  split
  · by_cases hne : lastStr st.sstk = []
    · right; simp [hne]
    · left; simp [hne]
  · left; rfl

theorem stepJoin_same (cls : ℤ) (st1 : ScanSt) (g : Glyph)
    (hcls : cls = st1.xt_cls) :
    (stepJoin cls st1 g).pstk.length = st1.pstk.length ∧
    (stepJoin cls st1 g).sstk.length = st1.sstk.length ∧
    (stepJoin cls st1 g).vstk = st1.vstk := by
  by_cases hv : st1.vstk = []
  · by_cases h1 : g.x0 > st1.xt.x1 + 1
    · simp [stepJoin, hv, hcls, h1, length_appendLast]
    · by_cases h2 : g.x1 < st1.xt.x0
      · simp [stepJoin, hv, hcls, h1, h2, length_appendLast, length_modifyLastPara]
      · simp [stepJoin, hv, hcls, h1, h2]
  · simp [stepJoin, hv]

theorem stepJoin_new (cls : ℤ) (st1 : ScanSt) (g : Glyph)
    (hv : st1.vstk = []) (hcls : cls ≠ st1.xt_cls) :
    (stepJoin cls st1 g).pstk.length = st1.pstk.length + 1 ∧
    (stepJoin cls st1 g).sstk.length = st1.sstk.length + 1 ∧
    (stepJoin cls st1 g).vstk = [] := by
  simp [stepJoin, hv, hcls]

theorem stepPush_text (cls : ℤ) (st2 : ScanSt) (g : Glyph) :
    (stepPush false cls st2 g).pstk.length = st2.pstk.length ∧
    (stepPush false cls st2 g).sstk.length = st2.sstk.length ∧
    (stepPush false cls st2 g).vstk = st2.vstk := by
  simp only [stepPush]
  refine ⟨?_, ?_, ?_⟩ <;> (repeat' split) <;>
    simp_all [length_modifyLastPara, length_appendLast]

theorem stepBBox_fields (cls : ℤ) (st3 : ScanSt) (g : Glyph) :
    (stepBBox cls st3 g).pstk.length = st3.pstk.length ∧
    (stepBBox cls st3 g).sstk = st3.sstk ∧
    (stepBBox cls st3 g).vstk = st3.vstk := by
  exact ⟨by simp [stepBBox, length_modifyLastPara], rfl, rfl⟩

theorem stepClose_var_of_open (cls : ℤ) (vmax : ℚ) (st : ScanSt) (g : Glyph)
    (hv : st.vstk ≠ []) :
    (stepClose false cls vmax st g).var = st.var ++ [st.vstk] := by
  simp only [stepClose]
  rw [if_pos ⟨Or.inl (by trivial), hv⟩]

theorem stepClose_var_of_closed (cv : Bool) (cls : ℤ) (vmax : ℚ) (st : ScanSt)
    (g : Glyph) (hv : st.vstk = []) :
    (stepClose cv cls vmax st g).var = st.var := by
  simp only [stepClose]
  split
  · rename_i hc
    exact absurd hv hc.2
  · rfl

theorem stepJoin_var (cls : ℤ) (st1 : ScanSt) (g : Glyph) :
    (stepJoin cls st1 g).var = st1.var := by
  simp only [stepJoin]
  repeat' split
  all_goals rfl

theorem stepPush_var (cur_v : Bool) (cls : ℤ) (st2 : ScanSt) (g : Glyph) :
    (stepPush cur_v cls st2 g).var = st2.var := by
  simp only [stepPush]
  repeat' split
  all_goals rfl

theorem stepBBox_var (cls : ℤ) (st3 : ScanSt) (g : Glyph) :
    (stepBBox cls st3 g).var = st3.var := rfl

/-- C9: for any input coordinate, the truncated cell coordinates are clamped
into the label map's shape, so the lookup indices are always in bounds and
the lookup never raises. -/
theorem C9_label_clamp (layout : ℕ → ℕ → ℤ) (h w : ℕ) (x0 y0 : ℚ)
    (hw : 1 ≤ w) (hh : 1 ≤ h) :
    0 ≤ npClip (truncToInt x0) 0 ((w : ℤ) - 1) ∧
    npClip (truncToInt x0) 0 ((w : ℤ) - 1) < (w : ℤ) ∧
    0 ≤ npClip (truncToInt y0) 0 ((h : ℤ) - 1) ∧
    npClip (truncToInt y0) 0 ((h : ℤ) - 1) < (h : ℤ) ∧
    (npClip (truncToInt x0) 0 ((w : ℤ) - 1)).toNat < w ∧
    (npClip (truncToInt y0) 0 ((h : ℤ) - 1)).toNat < h ∧
    labelLookup layout h w x0 y0 =
      layout (npClip (truncToInt y0) 0 ((h : ℤ) - 1)).toNat
        (npClip (truncToInt x0) 0 ((w : ℤ) - 1)).toNat := by
  have hw' : (1 : ℤ) ≤ (w : ℤ) := by exact_mod_cast hw
  have hh' : (1 : ℤ) ≤ (h : ℤ) := by exact_mod_cast hh
  unfold npClip
  refine ⟨?_, ?_, ?_, ?_, ?_, ?_, rfl⟩ <;> omega

theorem C9_label_clamp_witness :
    (npClip (truncToInt (-7 / 2 : ℚ)) 0 ((7 : ℤ) - 1)).toNat < 7 ∧
    (npClip (truncToInt (99 / 10 : ℚ)) 0 ((5 : ℤ) - 1)).toNat < 5 :=
  ⟨(C9_label_clamp (fun _ _ => 0) 5 7 (-7 / 2) (99 / 10) (by decide)
      (by decide)).2.2.2.2.1,
   (C9_label_clamp (fun _ _ => 0) 5 7 (-7 / 2) (99 / 10) (by decide)
      (by decide)).2.2.2.2.2.1⟩

/-- A concrete bullet glyph sitting in a non-zero region of the label map. -/
def bulletGlyphCE : Glyph :=
  { x0 := 10, x1 := 11, y0 := 10, y1 := 11, size := 10,
    text := ['•'], fontname := "Helvetica" }

/-- A configuration whose user regexes match nothing, so vflag can only
fire through the cid test. -/
def vcfgNoMatch : VCfg :=
  { vfontMatch := some (fun _ => false),
    vcharMatch := some (fun _ => false),
    builtinFontMatch := fun _ => false,
    ucdCat := fun _ => "Lu" }

/-- C4 counterexample: a bullet glyph over a cell of class 3 is assigned
class 0 (not a class different from 0, as the claim states), and the
non-body-class rule therefore classifies it as a formula glyph. -/
theorem C4_bullet_counterexample :
    labelLookup (fun _ _ => 3) 100 100 bulletGlyphCE.x0 bulletGlyphCE.y0 = 3 ∧
    glyphCls (fun _ _ => 3) 100 100 bulletGlyphCE = 0 ∧
    stepCurV0 vcfgNoMatch (glyphCls (fun _ _ => 3) 100 100 bulletGlyphCE)
      ({} : ScanSt) bulletGlyphCE = true := by decide

/-- C4 amended: a glyph whose decoded text equals the bullet character is
forced to class 0, the reserved non-body class, so the non-body-class rule
always classifies it as a formula glyph. -/
theorem C4_bullet_class_zero (cfg : VCfg) (layout : ℕ → ℕ → ℤ) (h w : ℕ)
    (st : ScanSt) (g : Glyph) (hg : g.text = ['•']) :
    glyphCls layout h w g = 0 ∧
    stepCurV0 cfg (glyphCls layout h w g) st g = true := by
  have h0 : glyphCls layout h w g = 0 := by simp [glyphCls, hg]
  refine ⟨h0, ?_⟩
  simp [stepCurV0, h0]

theorem C4_bullet_class_zero_witness :
    glyphCls (fun _ _ => 7) 50 50 bulletGlyphCE = 0 ∧
    stepCurV0 vcfgNoMatch (glyphCls (fun _ _ => 7) 50 50 bulletGlyphCE)
      ({} : ScanSt) bulletGlyphCE = true :=
  ⟨(C4_bullet_class_zero vcfgNoMatch (fun _ _ => 7) 50 50 {} bulletGlyphCE rfl).1,
   (C4_bullet_class_zero vcfgNoMatch (fun _ _ => 7) 50 50 {} bulletGlyphCE rfl).2⟩

/-- C5: the paragraph-closing behaviour of part A for a glyph the
classifier does not mark as formula.  First part (as the claim states): a
different (non-negative) layout class closes the open formula and opens a
new paragraph.  Second part (the amendment): in the same class, a
horizontal jump beyond vmax inside a non-empty text paragraph closes only
the open formula; the glyph stays in the same paragraph, so no new
paragraph is created. -/
theorem C5_paragraph_close (cfg : VCfg) (layout : ℕ → ℕ → ℤ) (h w : ℕ)
    (vmax : ℚ) (st : ScanSt) (g : Glyph)
    (hcv : (stepCurV cfg (glyphCls layout h w g) st g).1 = false) :
    (glyphCls layout h w g ≠ st.xt_cls → 0 ≤ glyphCls layout h w g →
      (stepChar cfg layout h w vmax st g).pstk.length = st.pstk.length + 1 ∧
      (stepChar cfg layout h w vmax st g).vstk = [] ∧
      (st.vstk ≠ [] →
        (stepChar cfg layout h w vmax st g).var = st.var ++ [st.vstk])) ∧
    (glyphCls layout h w g = st.xt_cls → lastStr st.sstk ≠ [] →
      |g.x0 - st.xt.x0| > vmax →
      (stepChar cfg layout h w vmax st g).pstk.length = st.pstk.length ∧
      (stepChar cfg layout h w vmax st g).sstk.length = st.sstk.length ∧
      (stepChar cfg layout h w vmax st g).vstk = [] ∧
      (st.vstk ≠ [] →
        (stepChar cfg layout h w vmax st g).var = st.var ++ [st.vstk])) := by
  have hstep : stepChar cfg layout h w vmax st g =
      stepBBox (glyphCls layout h w g)
        (stepPush (stepCurV cfg (glyphCls layout h w g) st g).1
          (glyphCls layout h w g)
          (stepJoin (glyphCls layout h w g)
            (stepClose (stepCurV cfg (glyphCls layout h w g) st g).1
              (glyphCls layout h w g) vmax
              { st with vbkt := (stepCurV cfg (glyphCls layout h w g) st g).2 } g)
            g) g) g := rfl
  rw [hcv] at hstep
  set cls := glyphCls layout h w g
  set st0 : ScanSt := { st with vbkt := (stepCurV cfg cls st g).2 } with hst0
  set s1 : ScanSt := stepClose false cls vmax st0 g with hs1
  set s2 : ScanSt := stepJoin cls s1 g with hs2
  set s3 : ScanSt := stepPush false cls s2 g with hs3
  have h1p : s1.pstk = st.pstk := stepClose_pstk false cls vmax st0 g
  have h1s : s1.sstk.length = st.sstk.length := stepClose_sstk_length false cls vmax st0 g
  have h1v : s1.vstk = [] := stepClose_vstk_of_curv_false cls vmax st0 g
  have hbb := stepBBox_fields cls s3 g
  constructor
  · intro hne hnn
    have hcases := stepClose_xt_cls_cases false cls vmax st0 g
    have hne1 : cls ≠ s1.xt_cls := by
      rcases hcases with hc | hc
      · rw [hc]; exact hne
      · rw [hc]; omega
    have hj := stepJoin_new cls s1 g h1v hne1
    have hp := stepPush_text cls s2 g
    refine ⟨?_, ?_, ?_⟩
    · rw [hstep, hbb.1, hp.1, hj.1, h1p]
    · rw [hstep, hbb.2.2, hp.2.2, hj.2.2]
    · intro hvs
      rw [hstep, stepBBox_var, stepPush_var, stepJoin_var, hs1,
        stepClose_var_of_open cls vmax st0 g hvs]
  · intro hcls hne _
    have h1c : s1.xt_cls = st.xt_cls := stepClose_xt_cls_of_ne false cls vmax st0 g hne
    have hcls1 : cls = s1.xt_cls := by rw [h1c]; exact hcls
    have hj := stepJoin_same cls s1 g hcls1
    have hp := stepPush_text cls s2 g
    refine ⟨?_, ?_, ?_, ?_⟩
    · rw [hstep, hbb.1, hp.1, hj.1, h1p]
    · rw [hstep]
      rw [show (stepBBox cls s3 g).sstk = s3.sstk from hbb.2.1]
      rw [hp.2.1, hj.2.1, h1s]
    · rw [hstep, hbb.2.2, hp.2.2, hj.2.2, h1v]
    · intro hvs
      rw [hstep, stepBBox_var, stepPush_var, stepJoin_var, hs1,
        stepClose_var_of_open cls vmax st0 g hvs]

/-- A one-paragraph scan state: the paragraph text is "ab", the previous
glyph sits at the far left, and its class is 3. -/
def scanStCE : ScanSt :=
  { sstk := [['a', 'b']],
    pstk := [{ y := 0, x := 0, x0 := 0, x1 := 1, y0 := 0, y1 := 10, size := 10 }],
    xt := { x0 := 0, x1 := 1, y0 := 0, y1 := 1, size := 10, text := ['a'],
            fontname := "Helvetica" },
    xt_cls := 3 }

/-- A plain text glyph far to the right of the previous one. -/
def glyphCE : Glyph :=
  { x0 := 200, x1 := 201, y0 := 0, y1 := 10, size := 10, text := ['c'],
    fontname := "Helvetica" }

/-- C5 counterexample: a non-formula glyph in the same class as the
previous glyph, more than vmax = 100 to the right of it, inside a
non-empty text paragraph, does not close the paragraph: the paragraph
count is unchanged and the glyph's text is appended (after a space) to the
same paragraph, contradicting the claim that the current paragraph is
closed and a new paragraph starts. -/
theorem C5_close_counterexample :
    (stepCurV vcfgNoMatch (glyphCls (fun _ _ => 3) 300 300 glyphCE) scanStCE
      glyphCE).1 = false ∧
    glyphCls (fun _ _ => 3) 300 300 glyphCE = scanStCE.xt_cls ∧
    |glyphCE.x0 - scanStCE.xt.x0| > 100 ∧
    lastStr scanStCE.sstk ≠ [] ∧
    (stepChar vcfgNoMatch (fun _ _ => 3) 300 300 100 scanStCE glyphCE).pstk.length =
      scanStCE.pstk.length ∧
    (stepChar vcfgNoMatch (fun _ _ => 3) 300 300 100 scanStCE glyphCE).sstk =
      [['a', 'b', ' ', 'c']] := by with_unfolding_all decide

/-- A one-paragraph scan state with an open formula and previous class 5. -/
def scanStW : ScanSt :=
  { sstk := [['a', 'b']],
    pstk := [{ y := 0, x := 0, x0 := 0, x1 := 1, y0 := 0, y1 := 10, size := 10 }],
    vstk := [{ x0 := 3, y0 := 4, size := 5, cid := 65, font := "F" }],
    xt := { x0 := 0, x1 := 1, y0 := 0, y1 := 1, size := 10, text := ['a'],
            fontname := "Helvetica" },
    xt_cls := 5 }

theorem C5_paragraph_close_witness :
    (stepChar vcfgNoMatch (fun _ _ => 3) 300 300 100 scanStW glyphCE).pstk.length =
      scanStW.pstk.length + 1 ∧
    (stepChar vcfgNoMatch (fun _ _ => 3) 300 300 100 scanStW glyphCE).vstk = [] ∧
    (scanStW.vstk ≠ [] →
      (stepChar vcfgNoMatch (fun _ _ => 3) 300 300 100 scanStW glyphCE).var =
        scanStW.var ++ [scanStW.vstk]) :=
  (C5_paragraph_close vcfgNoMatch (fun _ _ => 3) 300 300 100 scanStW glyphCE
    (by with_unfolding_all decide)).1 (by with_unfolding_all decide)
    (by with_unfolding_all decide)

/-- Python re.match of the placeholder pattern (open brace, optional
whitespace, the letter v in either case, one or more digit-or-whitespace
characters, close brace) at the start of the remaining string.  Returns the
captured digit group and the rest of the string after the match. -/
def matchVy (l : List Char) : Option (List Char × List Char) :=
  match l with
  | '\x7b' :: rest =>
    match rest.dropWhile pyIsSpace with
    | v :: rest3 =>
      if v = 'v' ∨ v = 'V' then
        let grp := rest3.takeWhile (fun c => c.isDigit || pyIsSpace c)
        if grp ≠ [] then
          match rest3.drop grp.length with
          | '\x7d' :: rest4 => some (grp, rest4)
          | _ => none
        else none
      else none
    | [] => none
  | _ => none

theorem matchVy_rest_lt (l g r : List Char) (hm : matchVy l = some (g, r)) :
    r.length < l.length := by
  unfold matchVy at hm
  split at hm
  · rename_i rest
    split at hm
    · rename_i v rest3 hdw
      split at hm
      · dsimp only at hm
        split at hm
        · split at hm
          · rename_i rest4 hdrop
            have hv : v :: rest3 ∈ [rest.dropWhile pyIsSpace] := by rw [hdw]; simp
            have h3 : rest3.length < rest.length + 1 := by
              have := (List.dropWhile_sublist pyIsSpace (l := rest)).length_le
              rw [hdw] at this
              simp at this
              omega
            have h4 : r.length < rest3.length := by
              have hlen := congrArg List.length hdrop
              simp [List.length_drop] at hlen
              cases hm
              omega
            simp only [List.length_cons]
            omega
          · exact absurd hm (by simp)
        · exact absurd hm (by simp)
      · exact absurd hm (by simp)
    · exact absurd hm (by simp)
  · exact absurd hm (by simp)

/-- Python int() applied to the captured group after removing literal
spaces: strip whitespace, then the remainder must be a non-empty run of
digits (internal tabs or newlines make int() raise). -/
def parseVid (grp : List Char) : Option ℕ :=
  let l1 := grp.filter (fun c => c ≠ ' ')
  let l2 := pyStrip l1
  if l2 ≠ [] ∧ l2.all Char.isDigit then some (digitsVal l2) else none

/-- Placeholder index resolution (converter.py lines 578-582): parse the
index and look up the formula width; a parse failure or an out-of-range
index raises and the placeholder is skipped. -/
def tryVid (grp : List Char) (len : ℕ) : Option ℕ :=
  match parseVid grp with
  | some vid => if vid < len then some vid else none
  | none => none

/-- The font environment of part C: the Unicode fallback name and font, the
Latin fallback decode test, the CID discriminant, per-font character
widths, and the font-object-to-id map together with the unicodedata
category table. -/
structure PgEnv where
  notoName : String
  tiroToUnichr : ℕ → Option Char
  notoHasGlyph : ℕ → ℕ
  notoCharLength : Char → ℚ → ℚ
  fontIsCID : String → Bool
  fontCharWidth : String → ℕ → ℚ
  fontid : String → String
  ucdCat : Char → String

/-- Left-zero-padded lowercase hex of a natural number (the %0nx format). -/
def hexPad (n v : ℕ) : List Char :=
  let ds := Nat.toDigits 16 v
  List.replicate (n - ds.length) '0' ++ ds

/-- raw_string (converter.py lines 483-489): hex-encode a run for a font;
the Unicode fallback uses its glyph indices, CID fonts use 4 hex digits,
others 2. -/
def rawString (env : PgEnv) (fcur : String) (cstk : List Char) : List Char :=
  if fcur = env.notoName then
    cstk.flatMap (fun c => hexPad 4 (env.notoHasGlyph c.toNat))
  else if env.fontIsCID fcur then
    cstk.flatMap (fun c => hexPad 4 c.toNat)
  else
    cstk.flatMap (fun c => hexPad 2 c.toNat)

/-- Font selection for an output character (converter.py lines 547-554 and
587-594): the Latin fallback if it round-trips the character, else the
Unicode fallback; an exception during the probe also falls back. -/
def pickFont (env : PgEnv) (ch : Char) : String :=
  match env.tiroToUnichr ch.toNat with
  | some c => if c = ch then "tiro" else env.notoName
  | none => env.notoName

/-- Advance of an output character (converter.py lines 595-598). -/
def charAdv (env : PgEnv) (f : String) (ch : Char) (size : ℚ) : ℚ :=
  if f = env.notoName then env.notoCharLength ch size
  else env.fontCharWidth f ch.toNat * size

/-- A queued operator of part C (the ops_vals dicts). -/
inductive OpVal where
  | text (font : String) (size x dy : ℚ) (rtxt : List Char) (lidx : ℕ)
  | line (x dy lw xlen ylen : ℚ) (lidx : ℕ)
deriving DecidableEq

/-- Placeholder emission (converter.py lines 619-647): each glyph of the
formula group becomes a TEXT op offset from the group's first glyph; the
vertical correction varf is applied only when a font is already active
(fcur is not None); the group's lines are emitted with the same offsets,
filtered to width below 5. -/
def emitFormula (env : PgEnv) (fcur : Option String) (x : ℚ) (lidx : ℕ)
    (gs : List Glyph) (gl : List Line) (gf : ℚ) : List OpVal :=
  let g0 := gs.headD defaultGlyph
  let fix0 := match fcur with
    | some _ => gf
    | none => 0
  (gs.map fun vch =>
    OpVal.text (env.fontid vch.font) vch.size (x + vch.x0 - g0.x0)
      (fix0 + vch.y0 - g0.y0)
      (rawString env (env.fontid vch.font) [Char.ofNat vch.cid]) lidx)
  ++ ((gl.filter (fun l => l.linewidth < 5)).map fun l =>
    OpVal.line (l.p0x + x - g0.x0) (l.p0y + fix0 - g0.y0) l.linewidth
      (l.p1x - l.p0x) (l.p1y - l.p0y) lidx)

/-- The per-paragraph context of the horizontal walk: the font environment,
the paragraph bounds, size and wrap flag, and the formula group lists. -/
structure HCtx where
  env : PgEnv
  x0 : ℚ
  x1 : ℚ
  size : ℚ
  brk : Bool
  var : List (List Glyph)
  varl : List (List Line)
  varf : List ℚ
  vlen : List ℚ

/-- The mutable state of the horizontal walk (converter.py lines 561-569):
cursor x, run start tx, the character buffer, the active and candidate
fonts, the line counter, and the queued operators. -/
structure HWalkSt where
  x : ℚ
  tx : ℚ
  cstk : List Char
  fcur : Option String
  fcurU : Option String
  lidx : ℕ
  ops : List OpVal

/-- Flushing the character buffer into a TEXT op (converter.py lines
600-615 and 663-673); a no-op on an empty buffer. -/
def flushRun (ctx : HCtx) (st : HWalkSt) : List OpVal :=
  if st.cstk ≠ [] then
    [OpVal.text (st.fcur.getD "") ctx.size st.tx 0
      (rawString ctx.env (st.fcur.getD "") st.cstk) st.lidx]
  else []

/-- One iteration of the horizontal walk (converter.py lines 571-662) on
the remaining string c :: rest: either consume a placeholder match (and
skip it silently when its index does not resolve), or consume one
character.  Returns the new state and the remaining string. -/
def hstep (ctx : HCtx) (st : HWalkSt) (c : Char) (rest : List Char) :
    HWalkSt × List Char :=
  match matchVy (c :: rest) with
  | some (grp, rest') =>
    match tryVid grp ctx.vlen.length with
    | none => (st, rest')
    | some vid =>
      let adv := ctx.vlen.getD vid 0
      let gk := ctx.var.getD vid []
      let lastG := gk.getLastD defaultGlyph
      let mod := if lastG.text ≠ [] ∧
          ctx.env.ucdCat (lastG.text.headD ' ') ∈
            (["Lm", "Mn", "Sk"] : List String) then lastG.width
        else 0
      let ops1 := st.ops ++ flushRun ctx st
      let doBrk := ctx.brk ∧ st.x + adv > ctx.x1 + (1 / 10) * ctx.size
      let xb := if doBrk then ctx.x0 else st.x
      let lidxb := if doBrk then st.lidx + 1 else st.lidx
      let ops2 := ops1 ++ emitFormula ctx.env st.fcur xb lidxb gk
        (ctx.varl.getD vid []) (ctx.varf.getD vid 0)
      ({ x := xb + (adv - mod), tx := st.tx, cstk := [], fcur := st.fcurU,
         fcurU := st.fcurU, lidx := lidxb, ops := ops2 }, rest')
  | none =>
    let fcur2 := pickFont ctx.env c
    let adv := charAdv ctx.env fcur2 c ctx.size
    let doFlush := st.fcur ≠ some fcur2 ∨ st.x + adv > ctx.x1 + (1 / 10) * ctx.size
    let ops1 := if doFlush then st.ops ++ flushRun ctx st else st.ops
    let cstk1 := if doFlush then [] else st.cstk
    let doBrk := ctx.brk ∧ st.x + adv > ctx.x1 + (1 / 10) * ctx.size
    let xb := if doBrk then ctx.x0 else st.x
    let lidxb := if doBrk then st.lidx + 1 else st.lidx
    let tca : ℚ × List Char × ℚ :=
      if cstk1 = [] then
        if xb = ctx.x0 ∧ c = ' ' then (xb, [], 0)
        else (xb, [c], adv)
      else (st.tx, cstk1 ++ [c], adv)
    ({ x := xb + tca.2.2, tx := tca.1, cstk := tca.2.1, fcur := some fcur2,
       fcurU := some fcur2, lidx := lidxb, ops := ops1 }, rest)

theorem hstep_rest_le (ctx : HCtx) (st : HWalkSt) (c : Char) (rest : List Char) :
    (hstep ctx st c rest).2.length ≤ rest.length := by
  unfold hstep
  split
  · rename_i grp rest' hm
    have := matchVy_rest_lt (c :: rest) grp rest' hm
    split <;> simp only [List.length_cons] at this ⊢ <;> omega
  · exact le_rfl

/-- The horizontal walk over the translated string (the while loop of
converter.py lines 571-662).  The fuel argument is instantiated with the
length of the remaining string; every iteration consumes at least one
character (hstep_rest_le), so the fuel never runs out before the string
does. -/
def hwalkGo (ctx : HCtx) : ℕ → HWalkSt → List Char → HWalkSt
  | 0, st, _ => st
  | _ + 1, st, [] => st
  | fuel + 1, st, c :: rest =>
    hwalkGo ctx fuel (hstep ctx st c rest).1 (hstep ctx st c rest).2

/-- A whole horizontal paragraph walk (converter.py lines 561-673): start
at the paragraph anchor with no active font, walk the translated string,
and flush the remaining buffer.  Returns the queued operators and the
final line counter. -/
def hwalkPara (ctx : HCtx) (x : ℚ) (new : List Char) : List OpVal × ℕ :=
  let st0 : HWalkSt :=
    { x := x, tx := x, cstk := [], fcur := none, fcurU := none, lidx := 0, ops := [] }
  let stF := hwalkGo ctx new.length st0 new
  (stF.ops ++ flushRun ctx stF, stF.lidx)

/-- The line-height shrinking loop (converter.py lines 675-678): while the
paragraph would overflow its height and the line height is at least 1,
decrement by 0.05. -/
def shrinkLineHeight (lidx : ℕ) (size height lh : ℚ) : ℚ :=
  if ((lidx : ℚ) + 1) * size * lh > height ∧ 1 ≤ lh then
    shrinkLineHeight lidx size height (lh - 1 / 20)
  else lh
termination_by (⌈20 * lh⌉ - 19).toNat
decreasing_by
  rename_i hcond
  have h1 : (20 : ℚ) * (lh - 1 / 20) = 20 * lh - 1 := by ring
  rw [h1, Int.ceil_sub_one]
  have h2 : (20 : ℚ) ≤ 20 * lh := by nlinarith [hcond.2]
  have h3 : (20 : ℤ) ≤ ⌈(20 : ℚ) * lh⌉ := by
    have := Int.ceil_le_ceil h2
    simpa using this
  omega

/-- str.lower(), modelled for the ASCII range (language codes are
ASCII). -/
def pyLower (s : String) : String := ⟨s.data.map Char.toLower⟩

/-- The per-language default line heights (converter.py lines 492-496),
looked up on the lowercased output language with default 1.1. -/
def defaultLineHeight (lang : String) : ℚ :=
  let l := pyLower lang
  if l = "zh-cn" ∨ l = "zh-tw" ∨ l = "zh-hans" ∨ l = "zh-hant" ∨ l = "zh" then 7 / 5
  else if l = "ja" then 11 / 10
  else if l = "ko" then 6 / 5
  else if l = "en" then 6 / 5
  else if l = "ar" then 1
  else if l = "ru" ∨ l = "uk" ∨ l = "ta" then 4 / 5
  else 11 / 10

/-- A finalized operator of the output content stream: the arguments of
gen_op_txt, gen_op_txt_vertical and gen_op_line. -/
inductive FinalOp where
  | text (font : String) (size x y : ℚ) (rtxt : List Char)
  | vtext (font : String) (size x y : ℚ) (rtxt : List Char) (dirNonNeg : Bool)
  | line (x y xlen ylen lw : ℚ)
deriving DecidableEq

/-- Final placement of a queued operator (converter.py lines 680-684): the
y coordinate is dy + y - lidx * size * line_height. -/
def applyLineHeight (y size lh : ℚ) : OpVal → FinalOp
  | .text f s x dy rtxt lidx => .text f s x (dy + y - (lidx : ℚ) * size * lh) rtxt
  | .line x dy lw xlen ylen lidx => .line x (dy + y - (lidx : ℚ) * size * lh) xlen ylen lw

/-- A whole horizontal paragraph of part C (converter.py lines 511-684):
walk the translated string, shrink the line height, and finalize the
queued operators. -/
def emitHorizontalPara (env : PgEnv) (lang : String) (p : Para)
    (var : List (List Glyph)) (varl : List (List Line)) (varf : List ℚ)
    (vlen : List ℚ) (new : List Char) : List FinalOp :=
  let ctx : HCtx :=
    { env := env, x0 := p.x0, x1 := p.x1, size := p.size, brk := p.brk,
      var := var, varl := varl, varf := varf, vlen := vlen }
  let res := hwalkPara ctx p.x new
  let lh := shrinkLineHeight res.2 p.size (p.y1 - p.y0) (defaultLineHeight lang)
  res.1.map (applyLineHeight p.y p.size lh)

/-- Effective direction of a vertical paragraph (converter.py line 521:
Python or makes 0 fall back to -1). -/
def effDirection (p : Para) : ℤ :=
  if p.vertical_direction = 0 then -1 else p.vertical_direction

/-- Effective spacing of a vertical paragraph (converter.py line 523). -/
def effSpacing (p : Para) : ℚ :=
  if p.vertical_spacing = 0 then p.size else p.vertical_spacing

/-- Initial fallback anchor of a vertical paragraph (converter.py lines
524-527). -/
def effStart (p : Para) : ℚ × ℚ :=
  match p.vertical_positions with
  | q :: _ => q
  | [] => (p.x, p.y)

/-- The vertical paragraph walk (converter.py lines 528-559): skip
newlines, drop placeholder matches, and emit one vertical-text operator per
remaining character, consuming the stored positions in order and then
synthesising positions advanced by direction times spacing.  Fuel as in
hwalkGo. -/
def vgo (env : PgEnv) (size : ℚ) (d : ℤ) (s : ℚ) :
    ℕ → List (ℚ × ℚ) → ℚ → ℚ → List Char → List FinalOp
  | 0, _, _, _, _ => []
  | _ + 1, _, _, _, [] => []
  | fuel + 1, queue, fx, fy, c :: rest =>
    if c = '\n' then vgo env size d s fuel queue fx fy rest
    else
      match matchVy (c :: rest) with
      | some (_, rest') => vgo env size d s fuel queue fx fy rest'
      | none =>
        let f := pickFont env c
        let r := rawString env f [c]
        match queue with
        | q :: qrest =>
          FinalOp.vtext f size q.1 q.2 r (decide (0 ≤ d)) ::
            vgo env size d s fuel qrest q.1 q.2 rest
        | [] =>
          FinalOp.vtext f size fx (fy + (d : ℚ) * s) r (decide (0 ≤ d)) ::
            vgo env size d s fuel [] fx (fy + (d : ℚ) * s) rest

/-- A whole vertical paragraph of part C (converter.py lines 520-559). -/
def emitVerticalPara (env : PgEnv) (p : Para) (new : List Char) : List FinalOp :=
  vgo env p.size (effDirection p) (effSpacing p) new.length
    p.vertical_positions (effStart p).1 (effStart p).2 new

/-- The characters of a translated string that the vertical walk actually
draws: newlines and placeholder matches are skipped. -/
def vDrawChars : ℕ → List Char → List Char
  | 0, _ => []
  | _ + 1, [] => []
  | fuel + 1, c :: rest =>
    if c = '\n' then vDrawChars fuel rest
    else
      match matchVy (c :: rest) with
      | some (_, rest') => vDrawChars fuel rest'
      | none => c :: vDrawChars fuel rest

/-- The positions at which the vertical walk places its operators: first
the stored positions in order, then synthesised positions stepping by
direction times spacing from the last consumed anchor. -/
def vposList (d s : ℚ) : List (ℚ × ℚ) → ℚ → ℚ → ℕ → List (ℚ × ℚ)
  | _, _, _, 0 => []
  | q :: qrest, _, _, m + 1 => q :: vposList d s qrest q.1 q.2 m
  | [], fx, fy, m + 1 => (fx, fy + d * s) :: vposList d s [] fx (fy + d * s) m

/-- Part C of receive_layout as a whole (converter.py lines 511-691):
every paragraph is emitted on its path, and the page-global lines are
appended, filtered to width below 5 (lines 686-688).  The debug-only
trace lines (guarded by log.isEnabledFor) are synthesised 0.1-width lines
and are modelled with debug logging disabled. -/
def receiveLayoutOut (env : PgEnv) (lang : String) (news : List (List Char))
    (pstk : List Para) (var : List (List Glyph)) (varl : List (List Line))
    (varf : List ℚ) (vlen : List ℚ) (lstk : List Line) : List FinalOp :=
  ((news.zip pstk).flatMap fun pr =>
    if pr.2.vertical then emitVerticalPara env pr.2 pr.1
    else emitHorizontalPara env lang pr.2 var varl varf vlen pr.1)
  ++ ((lstk.filter (fun l => l.linewidth < 5)).map fun l =>
    FinalOp.line l.p0x l.p0y (l.p1x - l.p0x) (l.p1y - l.p0y) l.linewidth)

/-- Python min() over a non-empty list (default only for the unreachable
empty case). -/
def listMinQ (l : List ℚ) (d : ℚ) : ℚ :=
  match l with
  | [] => d
  | x :: xs => xs.foldl min x

/-- statistics.median: sort, middle element for odd length, mean of the two
middle elements for even length. -/
def pyMedian (l : List ℚ) : ℚ :=
  let s := l.mergeSort (fun a b => decide (a ≤ b))
  let n := s.length
  if n % 2 = 1 then s.getD (n / 2) 0
  else (s.getD (n / 2 - 1) 0 + s.getD (n / 2) 0) / 2

/-- The stable sort order of flush_vertical_chars (converter.py line 245):
key (-y0, x0), ascending. -/
def vertSortLe (a b : Glyph) : Bool :=
  decide (b.y0 < a.y0) || (decide (a.y0 = b.y0) && decide (a.x0 ≤ b.x0))

/-- flush_vertical_chars (converter.py lines 241-289): sort the buffered
vertical glyphs by (-y0, x0); read the writing direction off the first
buffered glyph's matrix; reverse for upward runs; join and strip the
decoded texts; when the text is non-empty, push a vertical paragraph with
the glyph anchors as positions and the median y-step as spacing; in every
case the buffer is cleared.  Returns (sstk, pstk, vertical_chars). -/
def flushVerticalChars (vertical_chars : List Glyph)
    (sstk : List (List Char)) (pstk : List Para) :
    List (List Char) × List Para × List Glyph :=
  if vertical_chars = [] then (sstk, pstk, [])
  else
    let layout_chars := vertical_chars.mergeSort vertSortLe
    let m1 := (vertical_chars.headD defaultGlyph).m1
    let matrix_dir := if |m1| < 1 / 1000000 then (vertical_chars.headD defaultGlyph).m2 else m1
    let text_chars := if matrix_dir > 0 then layout_chars.reverse else layout_chars
    let direction_sign : ℤ := if matrix_dir > 0 then 1 else -1
    let text := pyStrip (text_chars.flatMap Glyph.text)
    if text ≠ [] then
      let spacing := if text_chars.length > 1 then
          pyMedian ((List.range (text_chars.length - 1)).map fun i =>
            |(text_chars.getD (i + 1) defaultGlyph).y0 -
              (text_chars.getD i defaultGlyph).y0|)
        else (text_chars.headD defaultGlyph).height
      (sstk ++ [text],
       pstk ++ [{
         y := (text_chars.headD defaultGlyph).y0,
         x := (text_chars.headD defaultGlyph).x0,
         x0 := listMinQ (vertical_chars.map Glyph.x0) 0,
         x1 := listMaxQ (vertical_chars.map Glyph.x1) 0,
         y0 := listMinQ (vertical_chars.map Glyph.y0) 0,
         y1 := listMaxQ (vertical_chars.map Glyph.y1) 0,
         size := listMaxQ (vertical_chars.map Glyph.size) 0,
         brk := false,
         vertical := true,
         vertical_direction := direction_sign,
         vertical_positions := text_chars.map (fun ch => (ch.x0, ch.y0)),
         vertical_spacing := spacing }],
       [])
    else (sstk, pstk, [])

/-- C10: flushing a vertical buffer whose glyph texts are all whitespace
(so the joined text strips to empty) emits no paragraph and no template
entry: both stacks are returned unchanged and the buffer is cleared, so
the glyphs appear nowhere downstream. -/
theorem C10_whitespace_vertical_flush (vc : List Glyph)
    (sstk : List (List Char)) (pstk : List Para)
    (hws : (vc.flatMap Glyph.text).all pyIsSpace = true) :
    flushVerticalChars vc sstk pstk = (sstk, pstk, []) := by
  have hmem : ∀ g ∈ vc, ∀ c ∈ g.text, pyIsSpace c = true := by
    rw [List.all_eq_true] at hws
    intro g hg c hc
    exact hws c (List.mem_flatMap.mpr ⟨g, hg, hc⟩)
  have hstrip : ∀ tc : List Glyph, (∀ g ∈ tc, ∀ c ∈ g.text, pyIsSpace c = true) →
      pyStrip (tc.flatMap Glyph.text) = [] := by
    intro tc hw
    rw [pyStrip_eq_nil_iff, List.all_eq_true]
    intro c hc
    obtain ⟨g, hg, hcg⟩ := List.mem_flatMap.mp hc
    exact hw g hg c hcg
  by_cases hvc : vc = []
  · simp [flushVerticalChars, hvc]
  · have hsort : ∀ g ∈ vc.mergeSort vertSortLe, ∀ c ∈ g.text, pyIsSpace c = true :=
      fun g hg => hmem g ((List.mergeSort_perm vc vertSortLe).mem_iff.mp hg)
    have hrev : pyStrip (((vc.mergeSort vertSortLe).reverse).flatMap Glyph.text) = [] :=
      hstrip _ (fun g hg => hsort g (List.mem_reverse.mp hg))
    have hnorm : pyStrip ((vc.mergeSort vertSortLe).flatMap Glyph.text) = [] :=
      hstrip _ hsort
    unfold flushVerticalChars
    rw [if_neg hvc]
    dsimp only
    split <;> split <;> simp [hrev, hnorm]

theorem C10_whitespace_vertical_flush_witness :
    flushVerticalChars
      [({ text := [' '] } : Glyph), ({ text := ['\t', '\n'] } : Glyph)]
      [['q']] [] = ([['q']], [], []) :=
  C10_whitespace_vertical_flush _ [['q']] [] (by decide)

/-- A queued operator is acceptable for the line-filter invariant when it is
not a line, or is a line of width below 5. -/
def opLineUnder5 : OpVal → Bool
  | .line _ _ lw _ _ _ => decide (lw < 5)
  | _ => true

/-- A final operator is acceptable for the line-filter invariant when it is
not a line, or is a line of width below 5. -/
def finalLineUnder5 : FinalOp → Bool
  | .line _ _ _ _ lw => decide (lw < 5)
  | _ => true

theorem emitFormula_lines (env : PgEnv) (fcur : Option String) (x : ℚ)
    (lidx : ℕ) (gs : List Glyph) (gl : List Line) (gf : ℚ) :
    (emitFormula env fcur x lidx gs gl gf).all opLineUnder5 = true := by
  unfold emitFormula
  rw [List.all_append, Bool.and_eq_true]
  constructor
  · rw [List.all_eq_true]
    intro v hv
    obtain ⟨g, _, rfl⟩ := List.mem_map.mp hv
    rfl
  · rw [List.all_eq_true]
    intro v hv
    obtain ⟨l, hl, rfl⟩ := List.mem_map.mp hv
    have := List.of_mem_filter hl
    simpa [opLineUnder5] using this

theorem flushRun_lines (ctx : HCtx) (st : HWalkSt) :
    (flushRun ctx st).all opLineUnder5 = true := by
  unfold flushRun
  split <;> simp [opLineUnder5]

theorem hstep_lines (ctx : HCtx) (st : HWalkSt) (c : Char) (rest : List Char)
    (hst : st.ops.all opLineUnder5 = true) :
    (hstep ctx st c rest).1.ops.all opLineUnder5 = true := by
  unfold hstep
  split
  · split
    · exact hst
    · dsimp only
      rw [List.all_append, List.all_append]
      simp [hst, flushRun_lines, emitFormula_lines]
  · dsimp only
    split <;> simp [hst, flushRun_lines]

theorem hwalkGo_lines (ctx : HCtx) :
    ∀ (fuel : ℕ) (st : HWalkSt) (rem : List Char),
      st.ops.all opLineUnder5 = true →
      (hwalkGo ctx fuel st rem).ops.all opLineUnder5 = true := by
  intro fuel
  induction fuel with
  | zero => intro st rem h; exact h
  | succ fuel ih =>
    intro st rem h
    cases rem with
    | nil => exact h
    | cons c rest =>
      simp only [hwalkGo]
      exact ih _ _ (hstep_lines ctx st c rest h)

theorem hwalkPara_lines (ctx : HCtx) (x : ℚ) (new : List Char) :
    (hwalkPara ctx x new).1.all opLineUnder5 = true := by
  unfold hwalkPara
  dsimp only
  rw [List.all_append, Bool.and_eq_true]
  exact ⟨hwalkGo_lines ctx new.length _ new rfl, flushRun_lines ctx _⟩

theorem applyLineHeight_lines (y size lh : ℚ) (v : OpVal)
    (hv : opLineUnder5 v = true) :
    finalLineUnder5 (applyLineHeight y size lh v) = true := by
  cases v with
  | text f s x dy rtxt lidx => rfl
  | line x dy lw xlen ylen lidx => simpa [opLineUnder5, applyLineHeight,
      finalLineUnder5] using hv

theorem vgo_lines (env : PgEnv) (size : ℚ) (d : ℤ) (s : ℚ) :
    ∀ (fuel : ℕ) (queue : List (ℚ × ℚ)) (fx fy : ℚ) (rem : List Char),
      (vgo env size d s fuel queue fx fy rem).all finalLineUnder5 = true := by
  intro fuel
  induction fuel with
  | zero => intro queue fx fy rem; rfl
  | succ fuel ih =>
    intro queue fx fy rem
    cases rem with
    | nil => rfl
    | cons c rest =>
      by_cases hc : c = '\n'
      · simp only [vgo, if_pos hc]
        exact ih queue fx fy rest
      · cases hm : matchVy (c :: rest) with
        | some pr =>
          obtain ⟨g1, r1⟩ := pr
          simp only [vgo, if_neg hc, hm]
          exact ih queue fx fy r1
        | none =>
          cases queue with
          | nil =>
            simp only [vgo, if_neg hc, hm]
            simpa [finalLineUnder5] using ih [] fx (fy + (d : ℚ) * s) rest
          | cons q qrest =>
            simp only [vgo, if_neg hc, hm]
            simpa [finalLineUnder5] using ih qrest q.1 q.2 rest

/-- C3: no line operator of width 5 or more ever reaches the output
stream: every line drawn by part C, whether spliced from a formula group
or from the page-global line list, has width below 5, for every input. -/
theorem C3_line_width_filter (env : PgEnv) (lang : String)
    (news : List (List Char)) (pstk : List Para) (var : List (List Glyph))
    (varl : List (List Line)) (varf : List ℚ) (vlen : List ℚ)
    (lstk : List Line) :
    (receiveLayoutOut env lang news pstk var varl varf vlen lstk).all
      finalLineUnder5 = true := by
  unfold receiveLayoutOut
  rw [List.all_append, Bool.and_eq_true]
  constructor
  · rw [List.all_eq_true]
    intro op hop
    obtain ⟨pr, _, hmem⟩ := List.mem_flatMap.mp hop
    by_cases hv : pr.2.vertical
    · rw [if_pos hv] at hmem
      have := vgo_lines env pr.2.size (effDirection pr.2) (effSpacing pr.2)
        pr.1.length pr.2.vertical_positions (effStart pr.2).1 (effStart pr.2).2 pr.1
      rw [List.all_eq_true] at this
      exact this op hmem
    · rw [if_neg hv] at hmem
      unfold emitHorizontalPara at hmem
      dsimp only at hmem
      obtain ⟨v, hvmem, rfl⟩ := List.mem_map.mp hmem
      have hall := hwalkPara_lines
        { env := env, x0 := pr.2.x0, x1 := pr.2.x1, size := pr.2.size,
          brk := pr.2.brk, var := var, varl := varl, varf := varf, vlen := vlen }
        pr.2.x pr.1
      rw [List.all_eq_true] at hall
      exact applyLineHeight_lines _ _ _ v (hall v hvmem)
  · rw [List.all_eq_true]
    intro op hop
    obtain ⟨l, hl, rfl⟩ := List.mem_map.mp hop
    have := List.of_mem_filter hl
    simpa [finalLineUnder5] using this

/-- C7 (amended): once a plain character has been processed before the
placeholder (the active font fcur is set), each glyph of formula group N is
enqueued as a TEXT op with the formula glyph's font and size, x equal to
the cursor plus the glyph's offset from the group's first glyph, and dy
equal to y_fix plus the glyph's vertical offset from the group's first
glyph.  (When no character precedes the placeholder, fcur is still None and
the correction y_fix is replaced by 0; see the counterexample.) -/
theorem C7_placeholder_ops (env : PgEnv) (f : String) (x : ℚ) (lidx : ℕ)
    (gs : List Glyph) (gl : List Line) (gf : ℚ) (i : ℕ) (hi : i < gs.length) :
    (emitFormula env (some f) x lidx gs gl gf)[i]? =
      some (OpVal.text (env.fontid gs[i].font) gs[i].size
        (x + gs[i].x0 - (gs.headD defaultGlyph).x0)
        (gf + gs[i].y0 - (gs.headD defaultGlyph).y0)
        (rawString env (env.fontid gs[i].font) [Char.ofNat gs[i].cid]) lidx) := by
  unfold emitFormula
  dsimp only
  rw [List.getElem?_append_left (by simpa using hi)]
  rw [List.getElem?_map]
  rw [List.getElem?_eq_getElem hi]
  rfl

/-- The font environment used for concrete runs: the Latin probe always
fails (everything falls back to the Unicode font), widths are 1, the font
id map is the identity. -/
def pgEnvCE : PgEnv :=
  { notoName := "noto", tiroToUnichr := fun _ => none,
    notoHasGlyph := fun _ => 0, notoCharLength := fun _ _ => 1,
    fontIsCID := fun _ => false, fontCharWidth := fun _ _ => 1,
    fontid := fun f => f, ucdCat := fun _ => "Lu" }

/-- A one-glyph formula group member. -/
def gCE7 : Glyph := { x0 := 3, y0 := 4, size := 5, cid := 65, font := "F" }

/-- A paragraph context holding one formula group with correction 7. -/
def hctxCE : HCtx :=
  { env := pgEnvCE, x0 := 0, x1 := 100, size := 10, brk := false,
    var := [[gCE7]], varl := [[]], varf := [7], vlen := [2] }

/-- C7 counterexample: a paragraph whose translation is just the
placeholder v0 (so no character precedes it and no font is active) emits
the formula glyph with dy = 0, while the claim's formula y_fix +
glyph.y0 - group0.y0 evaluates to 7: the stored correction varf is not
applied. -/
theorem C7_counterexample :
    (hwalkPara hctxCE 0 ['\x7b', 'v', '0', '\x7d']).1 =
      [OpVal.text "F" 5 0 0 ['4', '1'] 0] ∧
    hctxCE.varf.getD 0 0 + gCE7.y0 - gCE7.y0 = 7 ∧
    (0 : ℚ) ≠ 7 := by with_unfolding_all decide

theorem C7_placeholder_ops_witness :
    (emitFormula pgEnvCE (some "tiro") 2 1 [gCE7] [] 7)[0]? =
      some (OpVal.text (pgEnvCE.fontid gCE7.font) gCE7.size
        (2 + gCE7.x0 - (([gCE7] : List Glyph).headD defaultGlyph).x0)
        (7 + gCE7.y0 - (([gCE7] : List Glyph).headD defaultGlyph).y0)
        (rawString pgEnvCE (pgEnvCE.fontid gCE7.font) [Char.ofNat gCE7.cid]) 1) :=
  C7_placeholder_ops pgEnvCE "tiro" 2 1 [gCE7] [] 7 0 (by decide)

/-- C8: the horizontal paragraph line-height behaviour.  The default table
maps the lowercased output language to its constant (any unlisted language
gives 1.1); the shrink loop decrements by 0.05 exactly while the overflow
condition holds and the height is at least 1; the emitted operators are the
queued operators finalized with that line height, where finalization sends
dy to dy + y - lidx * size * line_height. -/
theorem C8_line_height (env : PgEnv) (lang : String) (p : Para)
    (var : List (List Glyph)) (varl : List (List Line)) (varf : List ℚ)
    (vlen : List ℚ) (new : List Char) :
    (∀ lg : String, pyLower lg ∉ (["zh-cn", "zh-tw", "zh-hans", "zh-hant",
        "zh", "ja", "ko", "en", "ar", "ru", "uk", "ta"] : List String) →
      defaultLineHeight lg = 11 / 10) ∧
    defaultLineHeight "zh" = 7 / 5 ∧ defaultLineHeight "zh-cn" = 7 / 5 ∧
    defaultLineHeight "zh-tw" = 7 / 5 ∧ defaultLineHeight "zh-hans" = 7 / 5 ∧
    defaultLineHeight "zh-hant" = 7 / 5 ∧ defaultLineHeight "ja" = 11 / 10 ∧
    defaultLineHeight "ko" = 6 / 5 ∧ defaultLineHeight "en" = 6 / 5 ∧
    defaultLineHeight "ar" = 1 ∧ defaultLineHeight "ru" = 4 / 5 ∧
    defaultLineHeight "uk" = 4 / 5 ∧ defaultLineHeight "ta" = 4 / 5 ∧
    (∀ (lidx : ℕ) (size height lh0 : ℚ),
      ((lidx : ℚ) + 1) * size * lh0 > height ∧ 1 ≤ lh0 →
      shrinkLineHeight lidx size height lh0 =
        shrinkLineHeight lidx size height (lh0 - 1 / 20)) ∧
    (∀ (lidx : ℕ) (size height lh0 : ℚ),
      ¬(((lidx : ℚ) + 1) * size * lh0 > height ∧ 1 ≤ lh0) →
      shrinkLineHeight lidx size height lh0 = lh0) ∧
    (∀ (y0 s0 lh0 s1 x0 dy : ℚ) (f0 : String) (rtxt : List Char) (lidx : ℕ),
      applyLineHeight y0 s0 lh0 (OpVal.text f0 s1 x0 dy rtxt lidx) =
        FinalOp.text f0 s1 x0 (dy + y0 - (lidx : ℚ) * s0 * lh0) rtxt) ∧
    (∀ (y0 s0 lh0 x0 dy lw xl yl : ℚ) (lidx : ℕ),
      applyLineHeight y0 s0 lh0 (OpVal.line x0 dy lw xl yl lidx) =
        FinalOp.line x0 (dy + y0 - (lidx : ℚ) * s0 * lh0) xl yl lw) ∧
    emitHorizontalPara env lang p var varl varf vlen new =
      (hwalkPara {
          env := env, x0 := p.x0, x1 := p.x1, size := p.size,
          brk := p.brk, var := var, varl := varl, varf := varf, vlen := vlen }
        p.x new).1.map
        (applyLineHeight p.y p.size
          (shrinkLineHeight
            (hwalkPara {
                env := env, x0 := p.x0, x1 := p.x1, size := p.size,
                brk := p.brk, var := var, varl := varl, varf := varf,
                vlen := vlen } p.x new).2
            p.size (p.y1 - p.y0) (defaultLineHeight lang))) := by
  refine ⟨?_, by with_unfolding_all decide, by with_unfolding_all decide,
    by with_unfolding_all decide, by with_unfolding_all decide,
    by with_unfolding_all decide, by with_unfolding_all decide,
    by with_unfolding_all decide, by with_unfolding_all decide,
    by with_unfolding_all decide, by with_unfolding_all decide,
    by with_unfolding_all decide, by with_unfolding_all decide,
    ?_, ?_, fun _ _ _ _ _ _ _ _ _ => rfl, fun _ _ _ _ _ _ _ _ _ => rfl, rfl⟩
  · intro lg hlg
    simp only [List.mem_cons, List.mem_singleton, not_or] at hlg
    obtain ⟨h1, h2, h3, h4, h5, h6, h7, h8, h9, h10, h11, h12⟩ := hlg
    simp [defaultLineHeight, h1, h2, h3, h4, h5, h6, h7, h8, h9, h10, h11, h12]
  · intro lidx size height lh0 hcond
    conv_lhs => rw [shrinkLineHeight]
    rw [if_pos hcond]
  · intro lidx size height lh0 hcond
    conv_lhs => rw [shrinkLineHeight]
    rw [if_neg hcond]

theorem C8_line_height_witness :
    defaultLineHeight "fr" = 11 / 10 :=
  (C8_line_height pgEnvCE "fr" defaultPara [] [] [] [] []).1 "fr" (by decide)

/-- The placement coordinates of a final operator. -/
def finalXY : FinalOp → ℚ × ℚ
  | .text _ _ x y _ => (x, y)
  | .vtext _ _ x y _ _ => (x, y)
  | .line x y _ _ _ => (x, y)

theorem vgo_spec (env : PgEnv) (size : ℚ) (d : ℤ) (s : ℚ) :
    ∀ (fuel : ℕ) (rem : List Char) (queue : List (ℚ × ℚ)) (fx fy : ℚ),
      (vgo env size d s fuel queue fx fy rem).length =
        (vDrawChars fuel rem).length ∧
      (vgo env size d s fuel queue fx fy rem).map finalXY =
        vposList (d : ℚ) s queue fx fy (vDrawChars fuel rem).length := by
  intro fuel
  induction fuel with
  | zero =>
    intro rem queue fx fy
    exact ⟨by simp [vgo, vDrawChars], by simp [vgo, vDrawChars, vposList]⟩
  | succ fuel ih =>
    intro rem queue fx fy
    cases rem with
    | nil => exact ⟨by simp [vgo, vDrawChars], by simp [vgo, vDrawChars, vposList]⟩
    | cons c rest =>
      by_cases hc : c = '\n'
      · simp only [vgo, vDrawChars, if_pos hc]
        exact ih rest queue fx fy
      · cases hm : matchVy (c :: rest) with
        | some pr =>
          obtain ⟨g1, r1⟩ := pr
          simp only [vgo, vDrawChars, if_neg hc, hm]
          exact ih r1 queue fx fy
        | none =>
          cases queue with
          | nil =>
            simp only [vgo, vDrawChars, if_neg hc, hm, List.length_cons,
              List.map_cons]
            refine ⟨by simp [(ih rest [] fx (fy + (d : ℚ) * s)).1], ?_⟩
            rw [(ih rest [] fx (fy + (d : ℚ) * s)).2]
            rfl
          | cons q qrest =>
            simp only [vgo, vDrawChars, if_neg hc, hm, List.length_cons,
              List.map_cons]
            refine ⟨by simp [(ih rest qrest q.1 q.2).1], ?_⟩
            rw [(ih rest qrest q.1 q.2).2]
            rfl

theorem vposList_get_lt (d s : ℚ) :
    ∀ (queue : List (ℚ × ℚ)) (fx fy : ℚ) (m i : ℕ), i < m → i < queue.length →
      (vposList d s queue fx fy m)[i]? = queue[i]? := by
  intro queue
  induction queue with
  | nil => intro fx fy m i _ h; simp at h
  | cons q qrest ih =>
    intro fx fy m i him hiq
    cases m with
    | zero => omega
    | succ m =>
      cases i with
      | zero => simp [vposList]
      | succ i =>
        simp only [vposList, List.getElem?_cons_succ]
        exact ih q.1 q.2 m i (by omega) (by simpa using hiq)

theorem vposList_nil_get (d s : ℚ) :
    ∀ (k m : ℕ) (fx fy : ℚ), k < m →
      (vposList d s [] fx fy m)[k]? = some (fx, fy + ((k : ℚ) + 1) * d * s) := by
  intro k
  induction k with
  | zero =>
    intro m fx fy hm
    cases m with
    | zero => omega
    | succ m =>
      simp only [vposList, List.getElem?_cons_zero, Option.some.injEq,
        Prod.mk.injEq, Nat.cast_zero]
      exact ⟨trivial, by ring⟩
  | succ k ih =>
    intro m fx fy hm
    cases m with
    | zero => omega
    | succ m =>
      simp only [vposList, List.getElem?_cons_succ]
      rw [ih m fx (fy + d * s) (by omega)]
      have harith : fy + d * s + ((k : ℚ) + 1) * d * s =
          fy + (((k + 1 : ℕ) : ℚ) + 1) * d * s := by push_cast; ring
      rw [harith]

theorem vposList_get_ge (d s : ℚ) :
    ∀ (queue : List (ℚ × ℚ)) (fx fy : ℚ) (m k : ℕ), queue.length + k < m →
      (vposList d s queue fx fy m)[queue.length + k]? =
        some ((queue.getLastD (fx, fy)).1,
          (queue.getLastD (fx, fy)).2 + ((k : ℚ) + 1) * d * s) := by
  intro queue
  induction queue with
  | nil =>
    intro fx fy m k h
    simpa using vposList_nil_get d s k m fx fy (by simpa using h)
  | cons q qrest ih =>
    intro fx fy m k h
    cases m with
    | zero => omega
    | succ m =>
      have hlen : (q :: qrest).length + k = (qrest.length + k) + 1 := by
        simp only [List.length_cons]; omega
      rw [hlen]
      simp only [vposList, List.getElem?_cons_succ]
      rw [ih q.1 q.2 m k (by simp only [List.length_cons] at h; omega)]
      rw [List.getLastD_cons]

/-- C6 (amended): for a vertical paragraph with direction -1, the walk
emits exactly one vertical-text operator per drawable character of the
translated string (newlines and placeholder matches are skipped, so a
short translation emits fewer than n operators); the first min(m, n)
operators sit at the stored positions in order, and every operator beyond
the n stored positions sits at a synthesised position stepping down by the
spacing from the last stored anchor. -/
theorem C6_vertical_positions (env : PgEnv) (p : Para) (new : List Char)
    (hd : p.vertical_direction = -1) :
    (emitVerticalPara env p new).length = (vDrawChars new.length new).length ∧
    (emitVerticalPara env p new).map finalXY =
      vposList (-1) (effSpacing p) p.vertical_positions (effStart p).1
        (effStart p).2 (vDrawChars new.length new).length ∧
    (∀ i, i < (vDrawChars new.length new).length →
      i < p.vertical_positions.length →
      ((emitVerticalPara env p new).map finalXY)[i]? =
        p.vertical_positions[i]?) ∧
    (∀ k, p.vertical_positions.length + k < (vDrawChars new.length new).length →
      ((emitVerticalPara env p new).map
          finalXY)[p.vertical_positions.length + k]? =
        some ((p.vertical_positions.getLastD (effStart p)).1,
          (p.vertical_positions.getLastD (effStart p)).2 -
            ((k : ℚ) + 1) * effSpacing p)) := by
  have hd' : effDirection p = -1 := by simp [effDirection, hd]
  have hcast : ((effDirection p : ℤ) : ℚ) = -1 := by rw [hd']; push_cast; ring
  have hspec := vgo_spec env p.size (effDirection p) (effSpacing p) new.length
    new p.vertical_positions (effStart p).1 (effStart p).2
  have hmap : (emitVerticalPara env p new).map finalXY =
      vposList (-1) (effSpacing p) p.vertical_positions (effStart p).1
        (effStart p).2 (vDrawChars new.length new).length := by
    unfold emitVerticalPara
    rw [hspec.2, hcast]
  refine ⟨hspec.1, hmap, ?_, ?_⟩
  · intro i h1 h2
    rw [hmap]
    exact vposList_get_lt (-1) (effSpacing p) p.vertical_positions _ _ _ i h1 h2
  · intro k hk
    rw [hmap]
    rw [vposList_get_ge (-1) (effSpacing p) p.vertical_positions _ _ _ k hk]
    have harith : (p.vertical_positions.getLastD (effStart p)).2 +
        ((k : ℚ) + 1) * (-1) * effSpacing p =
        (p.vertical_positions.getLastD (effStart p)).2 -
          ((k : ℚ) + 1) * effSpacing p := by ring
    rw [harith]

/-- A vertical paragraph with direction -1 and two captured positions. -/
def paraVCE : Para :=
  { y := 0, x := 0, size := 10, vertical := true, vertical_direction := -1,
    vertical_positions := [(1, 9), (1, 5)], vertical_spacing := 4 }

/-- C6 counterexample: a vertical paragraph with two captured positions
whose translation has a single drawable character emits one vertical-text
operator, not two: the number of emitted operators does depend on the
length of the translated string. -/
theorem C6_counterexample :
    paraVCE.vertical_direction = -1 ∧
    paraVCE.vertical_positions.length = 2 ∧
    (emitVerticalPara pgEnvCE paraVCE ['a']).length = 1 := by
  refine ⟨rfl, rfl, ?_⟩
  with_unfolding_all decide

theorem C6_vertical_positions_witness :
    (emitVerticalPara pgEnvCE paraVCE ['a', 'b', 'c']).length =
      (vDrawChars (['a', 'b', 'c'] : List Char).length ['a', 'b', 'c']).length :=
  (C6_vertical_positions pgEnvCE paraVCE ['a', 'b', 'c'] rfl).1

theorem hwalkGo_fuel_sufficient (ctx : HCtx) :
    ∀ (fuel fuel' : ℕ) (st : HWalkSt) (rem : List Char),
      rem.length ≤ fuel → rem.length ≤ fuel' →
      hwalkGo ctx fuel st rem = hwalkGo ctx fuel' st rem := by
  intro fuel
  induction fuel with
  | zero =>
    intro fuel' st rem h _
    have hr : rem = [] := List.length_eq_zero.mp (by omega)
    subst hr
    cases fuel' <;> rfl
  | succ fuel ih =>
    intro fuel' st rem h h'
    cases rem with
    | nil => cases fuel' <;> rfl
    | cons c rest =>
      cases fuel' with
      | zero => simp at h'
      | succ fuel' =>
        simp only [hwalkGo]
        have hle := hstep_rest_le ctx st c rest
        simp only [List.length_cons] at h h'
        exact ih fuel' _ _ (by omega) (by omega)

theorem vDrawChars_fuel_sufficient :
    ∀ (fuel fuel' : ℕ) (rem : List Char),
      rem.length ≤ fuel → rem.length ≤ fuel' →
      vDrawChars fuel rem = vDrawChars fuel' rem := by
  intro fuel
  induction fuel with
  | zero =>
    intro fuel' rem h _
    have hr : rem = [] := List.length_eq_zero.mp (by omega)
    subst hr
    cases fuel' <;> rfl
  | succ fuel ih =>
    intro fuel' rem h h'
    cases rem with
    | nil => cases fuel' <;> rfl
    | cons c rest =>
      cases fuel' with
      | zero => simp at h'
      | succ fuel' =>
        simp only [List.length_cons] at h h'
        by_cases hc : c = '\n'
        · simp only [vDrawChars, if_pos hc]
          exact ih fuel' rest (by omega) (by omega)
        · cases hm : matchVy (c :: rest) with
          | some pr =>
            obtain ⟨g1, r1⟩ := pr
            have hlt := matchVy_rest_lt (c :: rest) g1 r1 hm
            simp only [List.length_cons] at hlt
            simp only [vDrawChars, if_neg hc, hm]
            exact ih fuel' r1 (by omega) (by omega)
          | none =>
            simp only [vDrawChars, if_neg hc, hm]
            rw [ih fuel' rest (by omega) (by omega)]

theorem vgo_fuel_sufficient (env : PgEnv) (size : ℚ) (d : ℤ) (s : ℚ) :
    ∀ (fuel fuel' : ℕ) (queue : List (ℚ × ℚ)) (fx fy : ℚ) (rem : List Char),
      rem.length ≤ fuel → rem.length ≤ fuel' →
      vgo env size d s fuel queue fx fy rem =
        vgo env size d s fuel' queue fx fy rem := by
  intro fuel
  induction fuel with
  | zero =>
    intro fuel' queue fx fy rem h _
    have hr : rem = [] := List.length_eq_zero.mp (by omega)
    subst hr
    cases fuel' <;> rfl
  | succ fuel ih =>
    intro fuel' queue fx fy rem h h'
    cases rem with
    | nil => cases fuel' <;> rfl
    | cons c rest =>
      cases fuel' with
      | zero => simp at h'
      | succ fuel' =>
        simp only [List.length_cons] at h h'
        by_cases hc : c = '\n'
        · simp only [vgo, if_pos hc]
          exact ih fuel' queue fx fy rest (by omega) (by omega)
        · cases hm : matchVy (c :: rest) with
          | some pr =>
            obtain ⟨g1, r1⟩ := pr
            have hlt := matchVy_rest_lt (c :: rest) g1 r1 hm
            simp only [List.length_cons] at hlt
            simp only [vgo, if_neg hc, hm]
            exact ih fuel' queue fx fy r1 (by omega) (by omega)
          | none =>
            cases queue with
            | nil =>
              simp only [vgo, if_neg hc, hm]
              rw [ih fuel' [] fx (fy + (d : ℚ) * s) rest (by omega) (by omega)]
            | cons q qrest =>
              simp only [vgo, if_neg hc, hm]
              rw [ih fuel' qrest q.1 q.2 rest (by omega) (by omega)]
